import Mathlib

/-!
# Crawl-core verification: ScrapeGoat-And-ArchEnemy

A shallow embedding of the crawl core of the ScrapeGoat-And-ArchEnemy web
crawler (Go), together with theorems settling the frozen claims about it.

The embedding follows the Go source:

* `internal/engine` frontier file (`Frontier`, `priorityQueue` on top of Go's
  `container/heap`),
* `internal/engine/engine.go` (`Engine.AddRequest`, `Engine.Stop`, state
  constants, the statistics counters),
* `internal/engine/scheduler.go` (`Scheduler.handleFetchError`,
  `Scheduler.processRequest` counter paths),
* `internal/engine/dedup.go` (`Deduplicator`),
* `internal/fetcher/http.go` (`HTTPFetcher.Fetch` status dispatch,
  `isRetryableError`, `parseRetryAfter`),
* `internal/types` (`Request`, `FetchError`, priority constants).

Go `int`/`int64` values are modelled as `Int`; none of the verified paths can
overflow except the `Retry-After` seconds-to-nanoseconds conversion, which is
modelled with an explicit wrap to 64 bits (`int64Wrap`).  Concurrency
(mutexes, atomics, condition variables) is not modelled: every operation below
is the body of one critical section of the source, acting on an explicit
state value.  Wall-clock effects (`time.Sleep`, `time.Now`) are irrelevant to
the claims and are noted where they occur in the source.
-/

set_option linter.unusedVariables false

namespace Crawl

/-! ## Data model: `internal/types` -/

/-- Priority levels for request scheduling (`internal/types`):
`PriorityHighest = 0`, …, `PriorityLowest = 4`; lower value = scheduled
earlier. -/
def PriorityHighest : Int := 0

/-- `PriorityHigh = 1`. -/
def PriorityHigh : Int := 1

/-- `PriorityNormal = 2`. -/
def PriorityNormal : Int := 2

/-- `PriorityLow = 3`. -/
def PriorityLow : Int := 3

/-- `PriorityLowest = 4`. -/
def PriorityLowest : Int := 4

/-- `types.Request`, restricted to the fields the crawl-core claims exercise.
`url` stands for `Request.URL.String()` (the method `URLString`), `domain`
for `Request.URL.Hostname()` (the method `Domain`).  `Method`, `Headers`,
`Body`, `Meta`, `Tag`, `FetcherType`, `Callbacks`, `CreatedAt`, `ID` and
`Timeout` are carried by the Go struct but never read by the verified
operations, so they are omitted. -/
structure Request where
  url        : String
  domain     : String
  depth      : Int
  priority   : Int
  maxRetries : Int
  retryCount : Int
  parentURL  : String
  deriving Repr, DecidableEq

/-- `types.FetchError`: the error value produced by `HTTPFetcher.Fetch`.
`retryAfter` is a `time.Duration` (nanoseconds). -/
structure FetchError where
  url        : String
  statusCode : Int
  retryable  : Bool
  retryAfter : Int
  deriving Repr, DecidableEq

/-- `FetchError.IsRetryable` (internal/types): returns the `Retryable`
field. -/
def FetchError.IsRetryable (e : FetchError) : Bool := e.retryable

/-! ## Statistics counters (`engine.Stats`)

Only the atomic counters read or written by the verified operations are
modelled; each Go `atomic.Int64` becomes an `Int` field (no verified path
increments a counter anywhere near the `int64` range). -/

structure Stats where
  requestsSent    : Int
  requestsFailed  : Int
  responsesOK     : Int
  responsesError  : Int
  bytesDownloaded : Int
  urlsEnqueued    : Int
  urlsFiltered    : Int
  deriving Repr, DecidableEq

/-! ## The priority queue (`priorityQueue` + Go `container/heap`)

The frontier file stores `pqItem` values in a slice ordered as a binary
min-heap by Go's `container/heap`.  `pqItem.index` in the source only mirrors
the slice position (maintained by `Swap`/`Push`/`Pop` for `heap.Fix`, which
the frontier never calls) and does not influence ordering, so it is dropped
here.  `priorityQueue.Less(i, j)` compares `pq[i].priority < pq[j].priority`
only — there is no sequence number. -/

structure pqItem where
  request  : Request
  priority : Int
  deriving Repr, DecidableEq

instance : Inhabited pqItem :=
  ⟨{ request := { url := "", domain := "", depth := 0, priority := 0,
                  maxRetries := 0, retryCount := 0, parentURL := "" },
     priority := 0 }⟩

/-- `priorityQueue.Less`: lower priority value = higher priority. -/
def pqLess (a b : pqItem) : Bool := a.priority < b.priority

/-- Index read `pq[i]`.  Go indexing panics out of range; `container/heap`
only indexes inside the slice, and all lemmas below carry the in-range
hypotheses, so the default value is never observed. -/
def nth (l : List pqItem) (i : Nat) : pqItem := l.getD i default

/-- `priorityQueue.Swap(i, j)`: exchanges the elements at positions `i` and
`j` (the source additionally rewrites the mirrored `index` fields). -/
def listSwap (l : List pqItem) (i j : Nat) : List pqItem :=
  (l.set i (nth l j)).set j (nth l i)

/-- `container/heap.up(h, j)`: sift the element at `j` towards the root while
it is `Less` than its parent `i = (j-1)/2` (the Go local `i` is inlined).
The Go loop breaks when `i == j`, which happens exactly at `j = 0`. -/
def heapUp (l : List pqItem) (j : Nat) : List pqItem :=
  if h : j = 0 then l
  else if pqLess (nth l j) (nth l ((j - 1) / 2)) then
    heapUp (listSwap l ((j - 1) / 2) j) ((j - 1) / 2)
  else l
termination_by j
decreasing_by
  exact Nat.lt_of_le_of_lt (Nat.div_le_self _ 2) (Nat.pred_lt h)

/-- The Go local `j` of `container/heap.down`: the left child `j1 = 2*i+1`,
or the right child `j2 = j1+1` when it exists inside the prefix `n` and is
`Less` than the left one. -/
def downChild (l : List pqItem) (i n : Nat) : Nat :=
  if 2 * i + 2 < n ∧ pqLess (nth l (2 * i + 2)) (nth l (2 * i + 1)) then 2 * i + 2
  else 2 * i + 1

/-- `container/heap.down(h, i, n)`: sift the element at `i` down inside the
prefix of length `n`, descending to the `Less`-smaller child.  The Go
`j1 < 0` overflow guard cannot fire for `Nat` indices. -/
def heapDown (l : List pqItem) (i n : Nat) : List pqItem :=
  if h : n ≤ 2 * i + 1 then l
  else if pqLess (nth l (downChild l i n)) (nth l i) then
    heapDown (listSwap l i (downChild l i n)) (downChild l i n) n
  else l
termination_by n - i
decreasing_by
  simp only [downChild]
  split <;> omega

/-- `heap.Push`: append, then `up` from the last position. -/
def heapPush (l : List pqItem) (x : pqItem) : List pqItem :=
  heapUp (l ++ [x]) l.length

/-- `heap.Pop` on a non-empty heap: swap the root to the end, `down` the new
root inside the shortened prefix, then remove and return the last element
(`priorityQueue.Pop`).  `container/heap` panics on an empty heap; the
frontier guards every call with a length check, mirrored by the `Option`. -/
def heapPopMin (l : List pqItem) : Option (pqItem × List pqItem) :=
  match l with
  | [] => none
  | _ :: _ =>
    let n := l.length - 1
    let l2 := heapDown (listSwap l 0 n) 0 n
    some (nth l2 n, l2.dropLast)

/-! ## The frontier (`engine.Frontier`)

The mutex, condition variable and `notEmpty` channel serialize the
operations; each operation below is the body of one critical section.  The
blocking `Pop(ctx)` variant only repeats `TryPop`'s critical section, so it
is not modelled separately. -/

structure Frontier where
  pq     : List pqItem
  closed : Bool
  deriving Repr, DecidableEq

/-- `NewFrontier`. -/
def Frontier.new : Frontier := { pq := [], closed := false }

/-- `Frontier.Push`: no-op if closed, otherwise `heap.Push` of a `pqItem`
whose `priority` field is copied from the request. -/
def Frontier.push (f : Frontier) (req : Request) : Frontier :=
  if f.closed then f
  else { f with pq := heapPush f.pq { request := req, priority := req.priority } }

/-- `Frontier.TryPop`: non-blocking dequeue; `none` if empty.  Note: no
closed-check — popping continues from a closed frontier. -/
def Frontier.tryPop (f : Frontier) : Option Request × Frontier :=
  match heapPopMin f.pq with
  | none => (none, f)
  | some (item, pq') => (some item.request, { f with pq := pq' })

/-- `Frontier.Len`. -/
def Frontier.len (f : Frontier) : Nat := f.pq.length

/-- `Frontier.Close`: marks closed (irreversible in the source: nothing
resets the flag). -/
def Frontier.close (f : Frontier) : Frontier := { f with closed := true }

/-- `Frontier.RestoreAll`: bulk `heap.Push` for checkpoint restore.  Unlike
`Push`, there is no closed-check. -/
def Frontier.restoreAll (f : Frontier) (reqs : List Request) : Frontier :=
  { f with
    pq := reqs.foldl (fun pq req => heapPush pq { request := req, priority := req.priority }) f.pq }

/-- Push a whole list of requests, in order (a caller-side loop of
`Frontier.Push`). -/
def Frontier.pushAll (f : Frontier) (reqs : List Request) : Frontier :=
  reqs.foldl Frontier.push f

/-- Repeated `heap.Pop` until empty, fuelled by an iteration bound (each pop
removes one element, so any fuel ≥ length drains the heap; `popAllPQ` uses
exactly the length). -/
def popAllPQFuel : Nat → List pqItem → List pqItem
  | 0, _ => []
  | fuel + 1, l =>
    match heapPopMin l with
    | none => []
    | some (x, l') => x :: popAllPQFuel fuel l'

/-- Drain the heap by repeated `heap.Pop`. -/
def popAllPQ (l : List pqItem) : List pqItem := popAllPQFuel l.length l

/-- Repeated `Frontier.TryPop` (the worker-side dequeue loop), fuelled. -/
def popSeqFuel : Nat → Frontier → List Request
  | 0, _ => []
  | fuel + 1, f =>
    match f.tryPop with
    | (none, _) => []
    | (some r, f') => r :: popSeqFuel fuel f'

/-- Drain a frontier through repeated `TryPop`. -/
def Frontier.popSeq (f : Frontier) : List Request := popSeqFuel f.pq.length f

/-! ## Deduplicator (`internal/engine/dedup.go`)

The Go `seen map[string]struct{}` is modelled as the list of its keys with
insert-if-absent, preserving the map's membership semantics and `len`.
`CanonicalizeURL` and `hashURL` (SHA-256 truncated to 16 bytes, hex) are kept
abstract as the parameters `canon` and `hash`: every theorem below holds for
arbitrary `canon`/`hash`, hence in particular for the source's functions. -/

structure Deduplicator where
  seen : List String
  deriving Repr, DecidableEq

/-- `NewDeduplicator` (the capacity hint has no observable effect). -/
def Deduplicator.new : Deduplicator := { seen := [] }

/-- `Deduplicator.IsSeen`: membership of `hashURL(CanonicalizeURL(raw))`. -/
def Deduplicator.isSeen (canon hash : String → String) (d : Deduplicator)
    (rawURL : String) : Bool :=
  d.seen.contains (hash (canon rawURL))

/-- `Deduplicator.MarkSeen`: insert `hashURL(CanonicalizeURL(raw))`. -/
def Deduplicator.markSeen (canon hash : String → String) (d : Deduplicator)
    (rawURL : String) : Deduplicator :=
  if d.seen.contains (hash (canon rawURL)) then d
  else { seen := hash (canon rawURL) :: d.seen }

/-- `Deduplicator.Count`: `len(seen)`. -/
def Deduplicator.count (d : Deduplicator) : Nat := d.seen.length

/-- `Deduplicator.Reset`: replaces the set by a fresh empty map. -/
def Deduplicator.reset (_ : Deduplicator) : Deduplicator := { seen := [] }

/-- `Deduplicator.Export`: all stored hashes. -/
def Deduplicator.exportHashes (d : Deduplicator) : List String := d.seen

/-- `Deduplicator.Import`: merge hashes into the set. -/
def Deduplicator.importHashes (d : Deduplicator) (hashes : List String) :
    Deduplicator :=
  { seen := hashes.foldl (fun s h => if s.contains h then s else h :: s) d.seen }

/-- The operations of the `Deduplicator` other than `Reset`; `IsSeen`,
`Count` and `Export` are read-only and leave the state unchanged. -/
inductive DedupOp where
  | markSeen (rawURL : String)
  | importHashes (hashes : List String)
  | isSeen (rawURL : String)
  | count
  | exportHashes
  deriving Repr, DecidableEq

/-- State effect of one non-`Reset` operation. -/
def Deduplicator.applyOp (canon hash : String → String) (d : Deduplicator) :
    DedupOp → Deduplicator
  | .markSeen u => d.markSeen canon hash u
  | .importHashes hs => d.importHashes hs
  | .isSeen _ => d
  | .count => d
  | .exportHashes => d

/-- State effect of a sequence of non-`Reset` operations. -/
def Deduplicator.applyOps (canon hash : String → String) (d : Deduplicator)
    (ops : List DedupOp) : Deduplicator :=
  ops.foldl (Deduplicator.applyOp canon hash) d

/-! ## Engine lifecycle (`internal/engine/engine.go`)

The `State` constants `StateIdle = 0 … StateStopped = 4` stored in an atomic
`Int32`; transitions are compare-and-swap on that cell. -/

inductive EngState where
  | idle      -- StateIdle     = 0
  | running   -- StateRunning  = 1
  | paused    -- StatePaused   = 2
  | stopping  -- StateStopping = 3
  | stopped   -- StateStopped  = 4
  deriving Repr, DecidableEq

structure EngineLifecycle where
  state    : EngState
  frontier : Frontier
  deriving Repr, DecidableEq

/-- `Engine.Stop`: compare-and-swap Running → Stopping; on success close the
frontier and cancel the context (cancellation is a broadcast with no further
state effect here); on a failed CAS, return with no effect. -/
def engineStop (e : EngineLifecycle) : EngineLifecycle :=
  if e.state = .running then
    { state := .stopping, frontier := e.frontier.close }
  else e

/-- `Engine.Pause`: compare-and-swap Running → Paused. -/
def enginePause (e : EngineLifecycle) : EngineLifecycle :=
  if e.state = .running then { e with state := .paused } else e

/-- `Engine.Resume`: compare-and-swap Paused → Running. -/
def engineResume (e : EngineLifecycle) : EngineLifecycle :=
  if e.state = .paused then { e with state := .running } else e

/-! ## Fetch error classification (`internal/fetcher/http.go`) -/

/-- The shape of a Go error value as seen by `isRetryableError`: which of
the predicates the function tests hold of it (`errors.Is(err,
context.Canceled)`, …, `netErr.Timeout()`, `syscall.ECONNRESET`/`REFUSED`
under `errors.As`). -/
structure GoError where
  isCanceled         : Bool
  isDeadlineExceeded : Bool
  isUnexpectedEOF    : Bool
  isEOF              : Bool
  isNetTimeout       : Bool
  isConnReset        : Bool
  isConnRefused      : Bool
  deriving Repr, DecidableEq

/-- `isRetryableError`: the early-return chain of the source.  Context
cancellation is checked first and is NOT retryable. -/
def isRetryableError (e : GoError) : Bool :=
  if e.isCanceled || e.isDeadlineExceeded then false
  else if e.isUnexpectedEOF || e.isEOF then true
  else if e.isNetTimeout then true
  else if e.isConnReset || e.isConnRefused then true
  else false

/-- `time.Second` in nanoseconds (`time.Duration` is an `int64` nanosecond
count). -/
def second : Int := 1000000000

/-- Two's-complement wrap to `int64`, for the one spot where a Go multiply
can overflow. -/
def int64Wrap (x : Int) : Int := (x + 2 ^ 63) % 2 ^ 64 - 2 ^ 63

/-- `unicode.IsSpace` (the White_Space code points). -/
def isGoSpace (c : Char) : Bool :=
  c = ' ' || c = '\t' || c = '\n' || c.toNat = 0xB || c.toNat = 0xC ||
  c = '\r' || c.toNat = 0x85 || c.toNat = 0xA0 || c.toNat = 0x1680 ||
  (0x2000 ≤ c.toNat && c.toNat ≤ 0x200A) || c.toNat = 0x2028 ||
  c.toNat = 0x2029 || c.toNat = 0x202F || c.toNat = 0x205F || c.toNat = 0x3000

/-- `strings.TrimSpace`. -/
def trimSpace (s : String) : String :=
  (((s.toList.dropWhile isGoSpace).reverse.dropWhile isGoSpace).reverse).asString

/-- `strconv.Atoi` = `ParseInt(s, 10, 0)`: optional sign, one or more ASCII
digits, nothing else, and the value must fit in `int64` (overflow is an
error, sending the caller to the HTTP-date branch). -/
def goAtoi (s : String) : Option Int :=
  match s.toList with
  | [] => none
  | c :: rest =>
    let signDigits : Bool × List Char :=
      if c = '-' then (true, rest)
      else if c = '+' then (false, rest)
      else (false, c :: rest)
    if signDigits.2 = [] then none
    else if signDigits.2.all (fun d => '0' ≤ d && d ≤ '9') then
      let mag : Int := signDigits.2.foldl
        (fun acc d => acc * 10 + ((d.toNat : Int) - ('0'.toNat : Int))) 0
      let v : Int := if signDigits.1 then -mag else mag
      if -(2 ^ 63) ≤ v ∧ v ≤ 2 ^ 63 - 1 then some v else none
    else none

/-- `parseRetryAfter`: seconds integer first, then HTTP-date, else a 5 s
default.  `http.ParseTime` and the current instant are abstracted as the
parameters `httpParseTime` (returning a Unix-nanosecond timestamp) and
`now`, so the theorems hold for every behaviour of the date parser;
`time.Until t` is `t - now`.  The seconds value is capped at 120 before the
(possibly wrapping) conversion to nanoseconds. -/
def parseRetryAfter (httpParseTime : String → Option Int) (now : Int)
    (header : String) : Int :=
  if header = "" then 5 * second
  else
    match goAtoi (trimSpace header) with
    | some secs =>
      let secs := if secs > 120 then 120 else secs
      int64Wrap (secs * second)
    | none =>
      match httpParseTime header with
      | some t =>
        let d := t - now
        if d < 0 then second
        else if d > 120 * second then 120 * second
        else d
      | none => 5 * second

/-! ## `HTTPFetcher.Fetch`: status dispatch after `client.Do` -/

/-- The observable ingredients of a completed `client.Do` round trip that
the remainder of `Fetch` inspects: the status code, the `Retry-After`
header, and whether decompression (`decompressReader`) and the body read
(`io.ReadAll`) succeed, with the resulting body length. -/
structure HTTPRespModel where
  statusCode       : Int
  retryAfterHeader : String
  bodyLen          : Int
  decompressOk     : Bool
  readOk           : Bool
  deriving Repr, DecidableEq

/-- Result of `Fetch` as consumed by `processRequest`: a response, or a
`*types.FetchError`. -/
inductive FetchOutcome where
  | ok (bodyLen : Int)
  | fetchErr (e : FetchError)
  deriving Repr, DecidableEq

/-- The branch ladder of `Fetch` after `client.Do` returns a response:
429 → retryable error with parsed `Retry-After`; ≥ 500 → retryable error;
otherwise read the body (decompression errors are terminal, read errors
retryable) and return a success `Response` — note that 4xx codes other than
429 fall through to this success path. -/
def fetchDispatch (httpParseTime : String → Option Int) (now : Int)
    (req : Request) (resp : HTTPRespModel) : FetchOutcome :=
  if resp.statusCode = 429 then
    .fetchErr { url := req.url, statusCode := 429, retryable := true,
                retryAfter := parseRetryAfter httpParseTime now resp.retryAfterHeader }
  else if resp.statusCode ≥ 500 then
    .fetchErr { url := req.url, statusCode := resp.statusCode,
                retryable := true, retryAfter := 0 }
  else if resp.decompressOk = false then
    .fetchErr { url := req.url, statusCode := 0, retryable := false, retryAfter := 0 }
  else if resp.readOk = false then
    .fetchErr { url := req.url, statusCode := 0, retryable := true, retryAfter := 0 }
  else .ok resp.bodyLen

/-- The error-return path of `Fetch` when `client.Do` itself fails (network
error, timeout, cancellation): classify with `isRetryableError`. -/
def fetchDoError (req : Request) (err : GoError) : FetchError :=
  { url := req.url, statusCode := 0, retryable := isRetryableError err,
    retryAfter := 0 }

/-! ## Scheduler (`internal/engine/scheduler.go`) -/

/-- The engine state the scheduler and admission touch: counters, frontier
and dedup set. -/
structure EngineSt where
  stats    : Stats
  frontier : Frontier
  dedup    : Deduplicator
  deriving Repr, DecidableEq

/-- `Scheduler.handleFetchError`: count the failure; a retryable error with
remaining retries re-pushes the request with `RetryCount+1` at
`types.PriorityLow` directly onto the frontier (after sleeping out any
`Retry-After`, which has no state effect), otherwise count a response
error.  (The `err.(*types.FetchError)` assertion always succeeds: `Fetch`
only returns `*FetchError` values.) -/
def handleFetchError (st : EngineSt) (req : Request) (e : FetchError) :
    EngineSt :=
  let stats1 := { st.stats with requestsFailed := st.stats.requestsFailed + 1 }
  if e.IsRetryable = true ∧ req.retryCount < req.maxRetries then
    let req' := { req with retryCount := req.retryCount + 1, priority := PriorityLow }
    { st with stats := stats1, frontier := st.frontier.push req' }
  else
    { st with stats := { stats1 with responsesError := stats1.responsesError + 1 } }

/-- The counter effects of `Scheduler.processRequest` around one fetch:
`RequestsSent+1` before the fetch; on success `ResponsesOK+1` and
`BytesDownloaded += ContentLength` (the callback/parser stage that follows
touches none of these counters); on error, `handleFetchError`. -/
def processFetch (st : EngineSt) (req : Request) (outcome : FetchOutcome) :
    EngineSt :=
  let st1 := { st with stats := { st.stats with requestsSent := st.stats.requestsSent + 1 } }
  match outcome with
  | .ok bodyLen =>
    { st1 with stats := { st1.stats with
        responsesOK := st1.stats.responsesOK + 1,
        bytesDownloaded := st1.stats.bytesDownloaded + bodyLen } }
  | .fetchErr e => handleFetchError st1 req e

/-! ## Admission (`Engine.AddRequest`) -/

/-- The admission error taxonomy: `types.ErrMaxDepth`, `types.ErrDuplicate`,
`types.ErrBlocked`, and the `fmt.Errorf` domain error, plus success. -/
inductive AdmissionResult where
  | ok
  | errMaxDepth
  | errDuplicate
  | errBlocked
  | errDomainNotAllowed
  deriving Repr, DecidableEq

/-- The configuration fields `Engine.AddRequest` reads. -/
structure EngineConfig where
  maxDepth          : Int
  respectRobotsTxt  : Bool
  allowedDomains    : List String
  disallowedDomains : List String
  deriving Repr, DecidableEq

/-- `Engine.isDomainAllowed`: a non-empty allowlist is authoritative,
otherwise the denylist excludes. -/
def isDomainAllowed (cfg : EngineConfig) (domain : String) : Bool :=
  if cfg.allowedDomains.length > 0 then cfg.allowedDomains.contains domain
  else !(cfg.disallowedDomains.contains domain)

/-- `Engine.AddRequest`: depth, dedup, robots (when enabled), domain filter,
in that order; each failure bumps `URLsFiltered` and returns its error; on
success mark seen, push, bump `URLsEnqueued`.  `RobotsManager.IsAllowed` is
abstracted as the predicate `robotsIsAllowed`. -/
def AddRequest (cfg : EngineConfig) (canon hash : String → String)
    (robotsIsAllowed : String → Bool) (st : EngineSt) (req : Request) :
    AdmissionResult × EngineSt :=
  if req.depth > cfg.maxDepth then
    (.errMaxDepth,
      { st with stats := { st.stats with urlsFiltered := st.stats.urlsFiltered + 1 } })
  else if st.dedup.isSeen canon hash req.url then
    (.errDuplicate,
      { st with stats := { st.stats with urlsFiltered := st.stats.urlsFiltered + 1 } })
  else if cfg.respectRobotsTxt && !(robotsIsAllowed req.url) then
    (.errBlocked,
      { st with stats := { st.stats with urlsFiltered := st.stats.urlsFiltered + 1 } })
  else if !(isDomainAllowed cfg req.domain) then
    (.errDomainNotAllowed,
      { st with stats := { st.stats with urlsFiltered := st.stats.urlsFiltered + 1 } })
  else
    (.ok,
      { st with
        dedup := st.dedup.markSeen canon hash req.url,
        frontier := st.frontier.push req,
        stats := { st.stats with urlsEnqueued := st.stats.urlsEnqueued + 1 } })

/-! ## Concrete instances for counterexamples and witnesses -/

/-- All-zero counters. -/
def stats0 : Stats :=
  { requestsSent := 0, requestsFailed := 0, responsesOK := 0,
    responsesError := 0, bytesDownloaded := 0, urlsEnqueued := 0,
    urlsFiltered := 0 }

/-- A normal-priority request (three equal-priority requests for the
frontier ordering counterexample). -/
def cexReqA : Request :=
  { url := "http://h/a", domain := "h", depth := 0, priority := 2,
    maxRetries := 3, retryCount := 0, parentURL := "" }

def cexReqB : Request := { cexReqA with url := "http://h/b" }

def cexReqC : Request := { cexReqA with url := "http://h/c" }

/-- A fresh engine state: zero counters, new frontier, empty dedup. -/
def engineSt0 : EngineSt :=
  { stats := stats0, frontier := Frontier.new, dedup := Deduplicator.new }

/-- A retryable fetch error (e.g. a 503), for the retry path. -/
def cexRetryableErr : FetchError :=
  { url := "http://h/a", statusCode := 503, retryable := true, retryAfter := 0 }

/-- The Go error observed on a context-cancelled fetch:
`errors.Is(err, context.Canceled)` holds and nothing else. -/
def cancelErr : GoError :=
  { isCanceled := true, isDeadlineExceeded := false, isUnexpectedEOF := false,
    isEOF := false, isNetTimeout := false, isConnReset := false,
    isConnRefused := false }

/-- A date-parse oracle for contexts where the integer path is taken. -/
def noDate : String → Option Int := fun _ => none

/-- A closed frontier already holding one request. -/
def cexClosedFrontier : Frontier :=
  ((Frontier.new.push cexReqA).close)

/-- A permissive single-check configuration. -/
def cfg0 : EngineConfig :=
  { maxDepth := 5, respectRobotsTxt := false, allowedDomains := [],
    disallowedDomains := [] }

/-- Identity stand-ins for `canon`/`hash` where a concrete instantiation is
needed. -/
def idKey : String → String := fun s => s

/-- An engine lifecycle sitting in Paused. -/
def pausedEngine : EngineLifecycle :=
  { state := .paused, frontier := Frontier.new }

/-- An engine lifecycle sitting in Running. -/
def runningEngine : EngineLifecycle :=
  { state := .running, frontier := Frontier.new }

/-- A dedup set with one URL marked. -/
def cexDedup : Deduplicator := Deduplicator.new.markSeen idKey idKey "http://h/a"

/-- A plain 404 response whose body reads fine. -/
def resp404 : HTTPRespModel :=
  { statusCode := 404, retryAfterHeader := "", bodyLen := 10,
    decompressOk := true, readOk := true }

/-- The binary min-heap property of `container/heap` (with `priorityQueue`'s
`Less`) on the prefix of length `n`: every child's priority is at least its
parent's. -/
def Inv (l : List pqItem) (n : Nat) : Prop :=
  ∀ k, 0 < k → k < n → (nth l ((k - 1) / 2)).priority ≤ (nth l k).priority

/-! ## Heap lemmas

The min-heap invariant of `container/heap` and its preservation by the
sift operations, leading to the ordering theorem for pop sequences. -/

theorem nth_eq_getElem (l : List pqItem) (i : Nat) (h : i < l.length) :
    nth l i = l[i] := by
  simp [nth, List.getD_eq_getElem?_getD, List.getElem?_eq_getElem h]

theorem nth_mem (l : List pqItem) (i : Nat) (h : i < l.length) : nth l i ∈ l := by
  rw [nth_eq_getElem l i h]
  exact List.getElem_mem h

@[simp]
theorem length_listSwap (l : List pqItem) (i j : Nat) :
    (listSwap l i j).length = l.length := by
  simp [listSwap]

theorem nth_listSwap_fst (l : List pqItem) {i j : Nat}
    (hi : i < l.length) (hj : j < l.length) :
    nth (listSwap l i j) j = nth l i := by
  simp only [listSwap, nth, List.getD_eq_getElem?_getD]
  rw [List.getElem?_set_self (by simpa using hj)]
  rfl

theorem nth_listSwap_snd (l : List pqItem) {i j : Nat}
    (hi : i < l.length) (hj : j < l.length) (hij : i ≠ j) :
    nth (listSwap l i j) i = nth l j := by
  simp [listSwap, nth, List.getD_eq_getElem?_getD,
    List.getElem?_set_ne (Ne.symm hij), List.getElem?_set_self hi]

theorem nth_listSwap_other (l : List pqItem) {i j k : Nat}
    (hki : k ≠ i) (hkj : k ≠ j) :
    nth (listSwap l i j) k = nth l k := by
  simp [listSwap, nth, List.getD_eq_getElem?_getD,
    List.getElem?_set_ne (Ne.symm hkj), List.getElem?_set_ne (Ne.symm hki)]

theorem mem_of_mem_listSwap {l : List pqItem} {i j : Nat} {x : pqItem}
    (hi : i < l.length) (hj : j < l.length)
    (hx : x ∈ listSwap l i j) : x ∈ l := by
  rcases List.mem_or_eq_of_mem_set hx with hx' | rfl
  · rcases List.mem_or_eq_of_mem_set hx' with hx'' | rfl
    · exact hx''
    · exact nth_mem l j hj
  · exact nth_mem l i hi

theorem heapUp_zero (l : List pqItem) : heapUp l 0 = l := by
  rw [heapUp]
  simp

theorem heapUp_swap {l : List pqItem} {j : Nat} (hj : j ≠ 0)
    (hlt : pqLess (nth l j) (nth l ((j - 1) / 2)) = true) :
    heapUp l j = heapUp (listSwap l ((j - 1) / 2) j) ((j - 1) / 2) := by
  rw [heapUp]
  simp [hj, hlt]

theorem heapUp_stop {l : List pqItem} {j : Nat} (hj : j ≠ 0)
    (hlt : ¬ pqLess (nth l j) (nth l ((j - 1) / 2)) = true) :
    heapUp l j = l := by
  rw [heapUp]
  simp [hj, hlt]

theorem parent_lt {j : Nat} (hj : j ≠ 0) : (j - 1) / 2 < j :=
  Nat.lt_of_le_of_lt (Nat.div_le_self _ 2) (Nat.pred_lt hj)

@[simp]
theorem length_heapUp (l : List pqItem) (j : Nat) :
    (heapUp l j).length = l.length := by
  induction l, j using heapUp.induct with
  | case1 l => rw [heapUp_zero]
  | case2 l j hj hlt ih => rw [heapUp_swap hj hlt, ih, length_listSwap]
  | case3 l j hj hlt => rw [heapUp_stop hj hlt]

theorem mem_of_mem_heapUp {l : List pqItem} {j : Nat} {x : pqItem}
    (hjl : j < l.length) (hx : x ∈ heapUp l j) : x ∈ l := by
  induction l, j using heapUp.induct with
  | case1 l =>
    rw [heapUp_zero] at hx
    exact hx
  | case2 l j hj hlt ih =>
    rw [heapUp_swap hj hlt] at hx
    have hi : (j - 1) / 2 < l.length := Nat.lt_trans (parent_lt hj) hjl
    exact mem_of_mem_listSwap hi hjl (ih (by simpa using hi) hx)
  | case3 l j hj hlt =>
    rw [heapUp_stop hj hlt] at hx
    exact hx

theorem downChild_bounds {l : List pqItem} {i n : Nat} (h : ¬ n ≤ 2 * i + 1) :
    i < downChild l i n ∧ downChild l i n < n := by
  unfold downChild
  split <;> omega

theorem heapDown_stop_top {l : List pqItem} {i n : Nat} (h : n ≤ 2 * i + 1) :
    heapDown l i n = l := by
  rw [heapDown]
  simp [h]

theorem heapDown_swap {l : List pqItem} {i n : Nat} (h : ¬ n ≤ 2 * i + 1)
    (hlt : pqLess (nth l (downChild l i n)) (nth l i) = true) :
    heapDown l i n = heapDown (listSwap l i (downChild l i n)) (downChild l i n) n := by
  rw [heapDown]
  simp [h, hlt]

theorem heapDown_stop {l : List pqItem} {i n : Nat} (h : ¬ n ≤ 2 * i + 1)
    (hlt : ¬ pqLess (nth l (downChild l i n)) (nth l i) = true) :
    heapDown l i n = l := by
  rw [heapDown]
  simp [h, hlt]

@[simp]
theorem length_heapDown (l : List pqItem) (i n : Nat) :
    (heapDown l i n).length = l.length := by
  induction l, i, n using heapDown.induct with
  | case1 l i n h => rw [heapDown_stop_top h]
  | case2 l i n h hlt ih => rw [heapDown_swap h hlt, ih, length_listSwap]
  | case3 l i n h hlt => rw [heapDown_stop h hlt]

theorem mem_of_mem_heapDown {l : List pqItem} {i n : Nat} {x : pqItem}
    (hx : x ∈ heapDown l i n) (hn : n ≤ l.length) : x ∈ l := by
  induction l, i, n using heapDown.induct with
  | case1 l i n h =>
    rw [heapDown_stop_top h] at hx
    exact hx
  | case2 l i n h hlt ih =>
    rw [heapDown_swap h hlt] at hx
    have hb := downChild_bounds (l := l) (i := i) h
    have hi' : i < l.length := by omega
    have hj' : downChild l i n < l.length := Nat.lt_of_lt_of_le hb.2 hn
    exact mem_of_mem_listSwap hi' hj'
      (ih hx (by simpa using hn))
  | case3 l i n h hlt =>
    rw [heapDown_stop h hlt] at hx
    exact hx

/-- `heapDown` only rearranges positions strictly below `n`; every index at
or beyond `n` is untouched. -/
theorem nth_heapDown_ge {l : List pqItem} {i n : Nat} :
    ∀ k, n ≤ k → nth (heapDown l i n) k = nth l k := by
  induction l, i, n using heapDown.induct with
  | case1 l i n h =>
    intro k hk
    rw [heapDown_stop_top h]
  | case2 l i n h hlt ih =>
    intro k hk
    have hb := downChild_bounds (l := l) (i := i) h
    rw [heapDown_swap h hlt, ih k hk,
      nth_listSwap_other l (by omega) (by omega)]
  | case3 l i n h hlt =>
    intro k hk
    rw [heapDown_stop h hlt]

theorem pqLess_iff {a b : pqItem} : pqLess a b = true ↔ a.priority < b.priority := by
  simp [pqLess]

theorem le_of_not_pqLess {a b : pqItem} (h : ¬ pqLess a b = true) :
    b.priority ≤ a.priority := by
  simpa [pqLess_iff] using h

/-- `container/heap.up` restores the heap property when at most the position
`j` may violate it: all parent-child pairs not involving `j` as the child
hold (`h1`), and the children of `j` are already dominated by `j`'s parent
(`h2`). -/
theorem heapUp_inv : ∀ {l : List pqItem} {j : Nat}, j < l.length →
    (∀ k, 0 < k → k < l.length → k ≠ j →
      (nth l ((k - 1) / 2)).priority ≤ (nth l k).priority) →
    (∀ k, 0 < k → k < l.length → (k - 1) / 2 = j → 0 < j →
      (nth l ((j - 1) / 2)).priority ≤ (nth l k).priority) →
    Inv (heapUp l j) l.length := by
  intro l j
  induction l, j using heapUp.induct with
  | case1 l =>
    intro hjl h1 h2
    rw [heapUp_zero]
    intro k hk0 hkl
    exact h1 k hk0 hkl (Nat.pos_iff_ne_zero.mp hk0)
  | case2 l j hj hlt ih =>
    intro hjl h1 h2
    have hpj : (j - 1) / 2 < j := parent_lt hj
    have hp : (j - 1) / 2 < l.length := Nat.lt_trans hpj hjl
    have hlt' : (nth l j).priority < (nth l ((j - 1) / 2)).priority :=
      pqLess_iff.mp hlt
    have hA : nth (listSwap l ((j - 1) / 2) j) ((j - 1) / 2) = nth l j :=
      nth_listSwap_snd l hp hjl (Nat.ne_of_lt hpj)
    have hB : nth (listSwap l ((j - 1) / 2) j) j = nth l ((j - 1) / 2) :=
      nth_listSwap_fst l hp hjl
    have hC : ∀ k, k ≠ (j - 1) / 2 → k ≠ j →
        nth (listSwap l ((j - 1) / 2) j) k = nth l k := by
      intro k h₁ h₂
      exact nth_listSwap_other l h₁ h₂
    rw [heapUp_swap hj hlt]
    have hres := ih (by simpa using hp)
      (by
        -- h1 for the swapped list with hole (j-1)/2
        intro k hk0 hkl' hkp
        have hkl : k < l.length := by simpa using hkl'
        by_cases hkj : k = j
        · subst hkj
          rw [hA, hB]
          exact le_of_lt hlt'
        · have hk' : nth (listSwap l ((j - 1) / 2) j) k = nth l k := hC k hkp hkj
          by_cases hqp : (k - 1) / 2 = (j - 1) / 2
          · have hk1 := h1 k hk0 hkl hkj
            rw [hqp] at hk1
            rw [hqp, hA, hk']
            exact le_trans (le_of_lt hlt') hk1
          · by_cases hqj : (k - 1) / 2 = j
            · rw [hqj, hB, hk']
              exact h2 k hk0 hkl hqj (Nat.pos_of_ne_zero hj)
            · rw [hC _ hqp hqj, hk']
              exact h1 k hk0 hkl hkj)
      (by
        -- h2 for the swapped list with hole (j-1)/2
        intro k hk0 hkl' hkp hp0
        have hkl : k < l.length := by simpa using hkl'
        have hg : ((j - 1) / 2 - 1) / 2 < (j - 1) / 2 :=
          parent_lt (Nat.pos_iff_ne_zero.mp hp0)
        have hgC : nth (listSwap l ((j - 1) / 2) j) (((j - 1) / 2 - 1) / 2) =
            nth l (((j - 1) / 2 - 1) / 2) :=
          hC _ (Nat.ne_of_lt hg) (Nat.ne_of_lt (Nat.lt_trans hg hpj))
        by_cases hkj : k = j
        · subst hkj
          rw [hgC, hB]
          exact h1 _ hp0 hp (Nat.ne_of_lt hpj)
        · have hkp' : (j - 1) / 2 < k := hkp ▸ parent_lt (Nat.pos_iff_ne_zero.mp hk0)
          have hk' : nth (listSwap l ((j - 1) / 2) j) k = nth l k :=
            hC k (Nat.ne_of_gt hkp') hkj
          rw [hgC, hk']
          have hk1 := h1 k hk0 hkl hkj
          rw [hkp] at hk1
          exact le_trans (h1 _ hp0 hp (Nat.ne_of_lt hpj)) hk1)
    intro k hk0 hkl
    have := hres k hk0 (by simpa using hkl)
    exact this
  | case3 l j hj hlt =>
    intro hjl h1 h2
    rw [heapUp_stop hj hlt]
    intro k hk0 hkl
    by_cases hkj : k = j
    · subst hkj
      exact le_of_not_pqLess hlt
    · exact h1 k hk0 hkl hkj

/-- Whichever child `downChild` selects has priority at most that of either
in-range child. -/
theorem downChild_min {l : List pqItem} {i n : Nat} (h : ¬ n ≤ 2 * i + 1) :
    ∀ s, s < n → (s = 2 * i + 1 ∨ s = 2 * i + 2) →
      (nth l (downChild l i n)).priority ≤ (nth l s).priority := by
  intro s hs hs'
  unfold downChild
  by_cases hc : 2 * i + 2 < n ∧ pqLess (nth l (2 * i + 2)) (nth l (2 * i + 1)) = true
  · rw [if_pos hc]
    rcases hs' with rfl | rfl
    · exact le_of_lt (pqLess_iff.mp hc.2)
    · exact le_refl _
  · rw [if_neg hc]
    rcases hs' with rfl | rfl
    · exact le_refl _
    · rcases Decidable.not_and_iff_or_not.mp hc with hc' | hc'
      · omega
      · exact le_of_not_pqLess hc'

theorem downChild_parent {l : List pqItem} {i n : Nat} (h : ¬ n ≤ 2 * i + 1) :
    (downChild l i n - 1) / 2 = i := by
  unfold downChild
  split <;> omega

/-- `container/heap.down` restores the heap property on the prefix `n` when
at most the position `i` may violate it as a parent: all pairs whose parent
is not `i` hold (`h1`), and the children of `i` are already dominated by
`i`'s parent (`h2`). -/
theorem heapDown_inv : ∀ {l : List pqItem} {i n : Nat}, n ≤ l.length →
    (∀ k, 0 < k → k < n → (k - 1) / 2 ≠ i →
      (nth l ((k - 1) / 2)).priority ≤ (nth l k).priority) →
    (∀ k, 0 < k → k < n → (k - 1) / 2 = i → 0 < i →
      (nth l ((i - 1) / 2)).priority ≤ (nth l k).priority) →
    Inv (heapDown l i n) n := by
  intro l i n
  induction l, i, n using heapDown.induct with
  | case1 l i n h =>
    intro hn h1 h2
    rw [heapDown_stop_top h]
    intro k hk0 hkn
    by_cases hq : (k - 1) / 2 = i
    · omega
    · exact h1 k hk0 hkn hq
  | case2 l i n h hlt ih =>
    intro hn h1 h2
    have hb := downChild_bounds (l := l) (i := i) h
    have hcn : downChild l i n < n := hb.2
    have hic : i < downChild l i n := hb.1
    have hil : i < l.length := by omega
    have hcl : downChild l i n < l.length := by omega
    have hcp : (downChild l i n - 1) / 2 = i := downChild_parent h
    have hA : nth (listSwap l i (downChild l i n)) i = nth l (downChild l i n) :=
      nth_listSwap_snd l hil hcl (Nat.ne_of_lt hic)
    have hB : nth (listSwap l i (downChild l i n)) (downChild l i n) = nth l i :=
      nth_listSwap_fst l hil hcl
    have hC : ∀ k, k ≠ i → k ≠ downChild l i n →
        nth (listSwap l i (downChild l i n)) k = nth l k := by
      intro k h₁ h₂
      exact nth_listSwap_other l h₁ h₂
    rw [heapDown_swap h hlt]
    apply ih (by simpa using hn)
    · -- h1 for the swapped list with hole (downChild l i n)
      intro k hk0 hkn hkc
      by_cases hkj : k = downChild l i n
      · subst hkj
        rw [hcp, hA, hB]
        exact le_of_lt (pqLess_iff.mp hlt)
      · by_cases hki : k = i
        · have hi0 : 0 < i := hki ▸ hk0
          have hq : (i - 1) / 2 < i := parent_lt (Nat.pos_iff_ne_zero.mp hi0)
          rw [hki, hC _ (Nat.ne_of_lt hq) (Nat.ne_of_lt (Nat.lt_trans hq hic)), hA]
          exact h2 (downChild l i n) (by omega) hcn hcp hi0
        · have hk' : nth (listSwap l i (downChild l i n)) k = nth l k :=
            hC k hki hkj
          by_cases hqi : (k - 1) / 2 = i
          · rw [hqi, hA, hk']
            exact downChild_min h k hkn (by omega)
          · rw [hC _ hqi hkc, hk']
            exact h1 k hk0 hkn hqi
    · -- h2 for the swapped list with hole (downChild l i n)
      intro k hk0 hkn hkc hc0
      have hck : downChild l i n < k := hkc ▸ parent_lt (Nat.pos_iff_ne_zero.mp hk0)
      rw [hcp, hA, hC k (by omega) (by omega), ← hkc]
      exact h1 k hk0 hkn (by omega)
  | case3 l i n h hlt =>
    intro hn h1 h2
    rw [heapDown_stop h hlt]
    intro k hk0 hkn
    by_cases hqi : (k - 1) / 2 = i
    · rw [hqi]
      calc (nth l i).priority
          ≤ (nth l (downChild l i n)).priority := le_of_not_pqLess hlt
        _ ≤ (nth l k).priority := downChild_min h k hkn (by omega)
    · exact h1 k hk0 hkn hqi

/-- In a heap, the root has minimal priority on the prefix. -/
theorem Inv.rootMin {l : List pqItem} {n : Nat} (h : Inv l n) :
    ∀ k, k < n → (nth l 0).priority ≤ (nth l k).priority := by
  intro k
  induction k using Nat.strong_induction_on with
  | _ k ih =>
    intro hk
    rcases Nat.eq_zero_or_pos k with rfl | hk0
    · exact le_refl _
    · have hkne : k ≠ 0 := Nat.pos_iff_ne_zero.mp hk0
      exact le_trans
        (ih ((k - 1) / 2) (parent_lt hkne) (Nat.lt_trans (parent_lt hkne) hk))
        (h k hk0 hk)

theorem nth_append_lt {l : List pqItem} {x : pqItem} {k : Nat} (hk : k < l.length) :
    nth (l ++ [x]) k = nth l k := by
  simp [nth, List.getD_eq_getElem?_getD, List.getElem?_append_left hk]

@[simp]
theorem length_heapPush (l : List pqItem) (x : pqItem) :
    (heapPush l x).length = l.length + 1 := by
  rw [heapPush, length_heapUp]
  simp

theorem mem_of_mem_heapPush {l : List pqItem} {x y : pqItem}
    (hy : y ∈ heapPush l x) : y ∈ l ∨ y = x := by
  have hy' : y ∈ l ++ [x] :=
    mem_of_mem_heapUp (by simp) hy
  simpa using hy'

/-- `heap.Push` preserves the heap invariant. -/
theorem heapPush_inv {l : List pqItem} (h : Inv l l.length) (x : pqItem) :
    Inv (heapPush l x) (heapPush l x).length := by
  have hlen : (heapPush l x).length = (l ++ [x]).length := by simp
  rw [heapPush]
  have := heapUp_inv (l := l ++ [x]) (j := l.length) (by simp)
    (by
      intro k hk0 hkl hkj
      have hkl' : k < l.length := by
        simp only [List.length_append, List.length_singleton] at hkl
        omega
      rw [nth_append_lt hkl',
        nth_append_lt (Nat.lt_trans (parent_lt (Nat.pos_iff_ne_zero.mp hk0)) hkl')]
      exact h k hk0 hkl')
    (by
      intro k hk0 hkl hpar hj0
      exfalso
      simp only [List.length_append, List.length_singleton] at hkl
      omega)
  simpa using this

theorem nth_dropLast {l : List pqItem} {k : Nat} (hk : k < l.length - 1) :
    nth l.dropLast k = nth l k := by
  have hk' : k < l.length := by omega
  simp [nth, List.getD_eq_getElem?_getD, List.dropLast_eq_take, List.getElem?_take, hk,
    List.getElem?_eq_getElem hk']

theorem mem_nth {l : List pqItem} {y : pqItem} (hy : y ∈ l) :
    ∃ k, k < l.length ∧ nth l k = y := by
  rcases List.mem_iff_getElem?.mp hy with ⟨k, hk⟩
  have hkl : k < l.length := by
    by_contra hge
    rw [List.getElem?_eq_none (by omega)] at hk
    cases hk
  exact ⟨k, hkl, by simp [nth, List.getD_eq_getElem?_getD, hk]⟩

/-- Unfolding of `heapPopMin` on a non-empty heap. -/
theorem heapPopMin_cons (a : pqItem) (as : List pqItem) :
    heapPopMin (a :: as) =
      some (nth (heapDown (listSwap (a :: as) 0 as.length) 0 as.length) as.length,
        (heapDown (listSwap (a :: as) 0 as.length) 0 as.length).dropLast) := by
  simp [heapPopMin]

/-- The popped element is the root, the remainder is one shorter, keeps the
heap invariant, and is made of elements of the input. -/
theorem heapPopMin_spec {l : List pqItem} {x : pqItem} {l' : List pqItem}
    (hinv : Inv l l.length) (hp : heapPopMin l = some (x, l')) :
    x = nth l 0 ∧ l'.length + 1 = l.length ∧ Inv l' l'.length ∧
      ∀ y ∈ l', y ∈ l := by
  cases l with
  | nil => simp [heapPopMin] at hp
  | cons a as =>
    rw [heapPopMin_cons] at hp
    have hlen : (a :: as).length = as.length + 1 := by simp
    have h0l : 0 < (a :: as).length := by simp
    have hnl : as.length < (a :: as).length := by simp
    -- shorthand for the intermediate lists
    have hl1len : (listSwap (a :: as) 0 as.length).length = as.length + 1 := by simp
    have hl2len :
        (heapDown (listSwap (a :: as) 0 as.length) 0 as.length).length
          = as.length + 1 := by simp
    obtain ⟨rfl, rfl⟩ : x = nth (heapDown (listSwap (a :: as) 0 as.length) 0 as.length) as.length ∧
        l' = (heapDown (listSwap (a :: as) 0 as.length) 0 as.length).dropLast := by
      cases hp
      exact ⟨rfl, rfl⟩
    refine ⟨?_, ?_, ?_, ?_⟩
    · -- popped element = original root
      rw [nth_heapDown_ge as.length (le_refl _)]
      rcases Nat.eq_zero_or_pos as.length with hz | hpos
      · rw [hz]
        rw [nth_listSwap_fst _ h0l (hz ▸ hnl)]
      · rw [nth_listSwap_fst _ h0l hnl]
    · simp
    · -- remainder keeps the invariant
      have hinv2 : Inv (heapDown (listSwap (a :: as) 0 as.length) 0 as.length) as.length := by
        apply heapDown_inv (by omega)
        · intro k hk0 hkn hq
          have hkk : k ≠ 0 := Nat.pos_iff_ne_zero.mp hk0
          rw [nth_listSwap_other _ hq (by omega),
            nth_listSwap_other _ hkk (by omega)]
          exact hinv k hk0 (by omega)
        · intro k hk0 hkn hq hq0
          exact absurd hq0 (lt_irrefl 0)
      intro k hk0 hkl
      have hkl' : k < as.length := by
        simpa [List.length_dropLast, hl2len] using hkl
      rw [nth_dropLast (by omega), nth_dropLast (by omega)]
      exact hinv2 k hk0 hkl'
    · -- remainder elements come from the input
      intro y hy
      have hy2 : y ∈ heapDown (listSwap (a :: as) 0 as.length) 0 as.length :=
        (List.dropLast_sublist _).subset hy
      have hy1 : y ∈ listSwap (a :: as) 0 as.length :=
        mem_of_mem_heapDown hy2 (by simp)
      exact mem_of_mem_listSwap h0l hnl hy1

/-- An element of the input is popped or stays: conversely, every element
of the pop sequence is an element of the input heap. -/
theorem popAllPQFuel_subset : ∀ (fuel : Nat) {l : List pqItem} {y : pqItem},
    y ∈ popAllPQFuel fuel l → y ∈ l := by
  intro fuel
  induction fuel with
  | zero =>
    intro l y hy
    cases hy
  | succ fuel ih =>
    intro l y hy
    rw [popAllPQFuel] at hy
    rcases hm : heapPopMin l with _ | ⟨x, l'⟩
    · rw [hm] at hy
      cases hy
    · rw [hm] at hy
      cases l with
      | nil => simp [heapPopMin] at hm
      | cons a as =>
        rw [heapPopMin_cons] at hm
        obtain ⟨rfl, rfl⟩ : x = nth (heapDown (listSwap (a :: as) 0 as.length) 0 as.length) as.length ∧
            l' = (heapDown (listSwap (a :: as) 0 as.length) 0 as.length).dropLast := by
          cases hm
          exact ⟨rfl, rfl⟩
        have h0l : 0 < (a :: as).length := by simp
        have hnl : as.length < (a :: as).length := by simp
        rcases List.mem_cons.mp hy with rfl | hy'
        · have hmem : nth (heapDown (listSwap (a :: as) 0 as.length) 0 as.length) as.length
              ∈ heapDown (listSwap (a :: as) 0 as.length) 0 as.length :=
            nth_mem _ _ (by simp)
          exact mem_of_mem_listSwap h0l hnl (mem_of_mem_heapDown hmem (by simp))
        · have hy2 : y ∈ heapDown (listSwap (a :: as) 0 as.length) 0 as.length :=
            (List.dropLast_sublist _).subset (ih hy')
          exact mem_of_mem_listSwap h0l hnl (mem_of_mem_heapDown hy2 (by simp))

theorem popAllPQ_subset {l : List pqItem} {y : pqItem}
    (hy : y ∈ popAllPQ l) : y ∈ l :=
  popAllPQFuel_subset l.length hy

/-- Draining a heap that satisfies the invariant yields priorities in
non-decreasing order (for any fuel). -/
theorem popAllPQFuel_sorted : ∀ (fuel : Nat) {l : List pqItem}, Inv l l.length →
    (popAllPQFuel fuel l).Pairwise (fun a b => a.priority ≤ b.priority) := by
  intro fuel
  induction fuel with
  | zero =>
    intro l _
    exact List.Pairwise.nil
  | succ fuel ih =>
    intro l hinv
    rw [popAllPQFuel]
    rcases hm : heapPopMin l with _ | ⟨x, l'⟩
    · exact List.Pairwise.nil
    · obtain ⟨hx, hlen, hinv', hsub⟩ := heapPopMin_spec hinv hm
      refine List.Pairwise.cons ?_ (ih hinv')
      intro b hb
      have hb' : b ∈ l := hsub b (popAllPQFuel_subset fuel hb)
      obtain ⟨k, hkl, rfl⟩ := mem_nth hb'
      rw [hx]
      exact hinv.rootMin k hkl

theorem popAllPQ_sorted {l : List pqItem} (hinv : Inv l l.length) :
    (popAllPQ l).Pairwise (fun a b => a.priority ≤ b.priority) :=
  popAllPQFuel_sorted l.length hinv

/-! ## Frontier-level lemmas -/

theorem tryPop_of_none {f : Frontier} (h : heapPopMin f.pq = none) :
    f.tryPop = (none, f) := by
  rw [Frontier.tryPop, h]

theorem tryPop_of_some {f : Frontier} {x : pqItem} {pq' : List pqItem}
    (h : heapPopMin f.pq = some (x, pq')) :
    f.tryPop = (some x.request, { f with pq := pq' }) := by
  rw [Frontier.tryPop, h]

/-- The worker dequeue loop observes exactly the heap drain, projected to
requests. -/
theorem popSeqFuel_eq : ∀ (fuel : Nat) (f : Frontier),
    popSeqFuel fuel f = (popAllPQFuel fuel f.pq).map pqItem.request := by
  intro fuel
  induction fuel with
  | zero =>
    intro f
    rfl
  | succ fuel ih =>
    intro f
    rw [popSeqFuel, popAllPQFuel]
    rcases hm : heapPopMin f.pq with _ | ⟨x, pq'⟩
    · rw [tryPop_of_none hm]
      rfl
    · rw [tryPop_of_some hm]
      simp only [List.map_cons]
      rw [ih { f with pq := pq' }]

theorem popSeq_eq (f : Frontier) :
    f.popSeq = (popAllPQ f.pq).map pqItem.request := by
  rw [Frontier.popSeq, popAllPQ, popSeqFuel_eq]

/-- Pushing onto an open frontier preserves openness, the heap invariant,
and the agreement of the stored `pqItem.priority` with the request's
priority. -/
theorem push_preserves {f : Frontier} (req : Request)
    (hc : f.closed = false) (hinv : Inv f.pq f.pq.length)
    (hcoh : ∀ it ∈ f.pq, it.priority = it.request.priority) :
    (f.push req).closed = false ∧ Inv (f.push req).pq (f.push req).pq.length ∧
      ∀ it ∈ (f.push req).pq, it.priority = it.request.priority := by
  rw [Frontier.push, hc]
  simp only [Bool.false_eq_true, if_false]
  refine ⟨trivial, heapPush_inv hinv _, ?_⟩
  intro it hit
  rcases mem_of_mem_heapPush hit with hit' | rfl
  · exact hcoh it hit'
  · rfl

theorem pushAll_preserves : ∀ (reqs : List Request) (f : Frontier),
    f.closed = false → Inv f.pq f.pq.length →
    (∀ it ∈ f.pq, it.priority = it.request.priority) →
    (f.pushAll reqs).closed = false ∧
      Inv (f.pushAll reqs).pq (f.pushAll reqs).pq.length ∧
      ∀ it ∈ (f.pushAll reqs).pq, it.priority = it.request.priority := by
  intro reqs
  induction reqs with
  | nil =>
    intro f h1 h2 h3
    exact ⟨h1, h2, h3⟩
  | cons r rs ih =>
    intro f h1 h2 h3
    obtain ⟨h1', h2', h3'⟩ := push_preserves r h1 h2 h3
    simpa [Frontier.pushAll, List.foldl_cons] using ih (f.push r) h1' h2' h3'

/-- `RestoreAll` grows the queue by one pushed item per request, independent
of the closed flag. -/
theorem restoreAll_length (f : Frontier) (reqs : List Request) :
    (f.restoreAll reqs).pq.length = f.pq.length + reqs.length := by
  rw [Frontier.restoreAll]
  simp only []
  induction reqs generalizing f with
  | nil => simp
  | cons r rs ih =>
    simp only [List.foldl_cons, List.length_cons]
    have := ih { f with pq := heapPush f.pq { request := r, priority := r.priority } }
    simp only [] at this
    rw [this, length_heapPush]
    omega

/-! ## The claims -/

/-- C1 (counterexample): `priorityQueue.Less` compares priorities only — no
sequence number is stored — so ties are NOT broken by insertion order.
Pushing three equal-priority requests a, b, c and popping yields a, c, b:
c pops before the earlier-pushed b, refuting stable FIFO within a priority
class. -/
theorem frontier_fifo_counterexample :
    cexReqA.priority = cexReqB.priority ∧ cexReqB.priority = cexReqC.priority ∧
    (Frontier.new.pushAll [cexReqA, cexReqB, cexReqC]).popSeq
      = [cexReqA, cexReqC, cexReqB] ∧
    (Frontier.new.pushAll [cexReqA, cexReqB, cexReqC]).popSeq
      ≠ [cexReqA, cexReqB, cexReqC] := by
  have hpush : Frontier.new.pushAll [cexReqA, cexReqB, cexReqC] =
      { pq := [{ request := cexReqA, priority := 2 },
               { request := cexReqB, priority := 2 },
               { request := cexReqC, priority := 2 }],
        closed := false } := by
    simp [Frontier.pushAll, Frontier.new, Frontier.push, heapPush, heapUp,
      pqLess, nth, listSwap, cexReqA, cexReqB, cexReqC]
  have hpop : (Frontier.new.pushAll [cexReqA, cexReqB, cexReqC]).popSeq
      = [cexReqA, cexReqC, cexReqB] := by
    rw [hpush]
    simp [Frontier.popSeq, popSeqFuel, Frontier.tryPop, heapPopMin, heapDown,
      downChild, listSwap, nth, pqLess, cexReqA, cexReqB, cexReqC]
  refine ⟨rfl, rfl, hpop, ?_⟩
  rw [hpop]
  simp [cexReqB, cexReqC]

/-- C1 (amended): for every sequence of pushes into a fresh frontier, the
popped requests come out sorted ascending by priority; the order among
requests of equal priority is unspecified (no sequence number is stored). -/
theorem frontier_pop_sorted_by_priority (reqs : List Request) :
    ((Frontier.new.pushAll reqs).popSeq.map Request.priority).Sorted (· ≤ ·) := by
  obtain ⟨hcl, hinv, hcoh⟩ := pushAll_preserves reqs Frontier.new rfl
    (by intro k hk0 hk; simp [Frontier.new] at hk)
    (by intro it hit; simp [Frontier.new] at hit)
  rw [popSeq_eq, List.map_map, List.Sorted, List.pairwise_map]
  refine List.Pairwise.imp_of_mem ?_ (popAllPQ_sorted hinv)
  intro a b ha hb hab
  have ha' := hcoh a (popAllPQ_subset ha)
  have hb' := hcoh b (popAllPQ_subset hb)
  simpa [Function.comp, ← ha', ← hb'] using hab

/-- C10: on a closed frontier, `RestoreAll` still inserts every request
(the queue grows by the number of requests) even though `Push` on a closed
frontier inserts nothing: the closed flag guards `Push` but not
`RestoreAll`. -/
theorem restoreAll_ignores_closed (f : Frontier) (reqs : List Request)
    (r : Request) (hc : f.closed = true) :
    (f.restoreAll reqs).len = f.len + reqs.length ∧ f.push r = f := by
  constructor
  · rw [Frontier.len, Frontier.len, restoreAll_length]
  · rw [Frontier.push, hc]
    simp

/-- C10 witness: a concrete closed frontier. -/
theorem restoreAll_ignores_closed_witness :
    cexClosedFrontier.closed = true ∧
    (cexClosedFrontier.restoreAll [cexReqB, cexReqC]).len
      = cexClosedFrontier.len + 2 ∧
    cexClosedFrontier.push cexReqB = cexClosedFrontier := by
  have h := restoreAll_ignores_closed cexClosedFrontier [cexReqB, cexReqC]
    cexReqB rfl
  exact ⟨rfl, h.1, h.2⟩

/-- C5 (counterexample): `Engine.Stop` only compare-and-swaps
Running → Stopping, so `stop()` on a Paused engine is a no-op: the state
stays Paused and never becomes Stopping, refuting the
`Paused --stop()--> Stopping` transition. -/
theorem stop_from_paused_counterexample :
    engineStop pausedEngine = pausedEngine ∧
    (engineStop pausedEngine).state ≠ EngState.stopping ∧
    enginePause runningEngine = pausedEngine := by
  refine ⟨rfl, ?_, rfl⟩
  intro h
  simp [engineStop, pausedEngine] at h

/-- C5 (amended): `stop()` is applicable from Running only: it transitions
Running → Stopping and closes the frontier; from Paused — and every other
non-Running state — the compare-and-swap fails and `stop()` has no effect,
so a paused engine must be resumed before it can be stopped. -/
theorem engineStop_spec (e : EngineLifecycle) :
    (e.state = .running →
      engineStop e = { state := .stopping, frontier := e.frontier.close }) ∧
    (e.state ≠ .running → engineStop e = e) := by
  constructor
  · intro h
    rw [engineStop, if_pos h]
  · intro h
    rw [engineStop, if_neg h]

/-- C5 witness: stopping a running engine. -/
theorem engineStop_spec_witness :
    engineStop runningEngine
      = { state := .stopping, frontier := Frontier.new.close } :=
  (engineStop_spec runningEngine).1 rfl

/-! ### C9: dedup monotonicity -/

theorem markSeen_mem {canon hash : String → String} {d : Deduplicator}
    {k : String} (u : String) (hk : k ∈ d.seen) :
    k ∈ (d.markSeen canon hash u).seen := by
  rw [Deduplicator.markSeen]
  split
  · exact hk
  · exact List.mem_cons_of_mem _ hk

theorem markSeen_self (canon hash : String → String) (d : Deduplicator)
    (u : String) : hash (canon u) ∈ (d.markSeen canon hash u).seen := by
  rw [Deduplicator.markSeen]
  split
  · next h => exact List.elem_iff.mp h
  · exact List.mem_cons_self _ _

theorem importHashes_mem {d : Deduplicator} {k : String}
    (hashes : List String) (hk : k ∈ d.seen) :
    k ∈ (d.importHashes hashes).seen := by
  rw [Deduplicator.importHashes]
  simp only []
  induction hashes generalizing d with
  | nil => exact hk
  | cons h hs ih =>
    simp only [List.foldl_cons]
    by_cases hmem : d.seen.contains h
    · rw [if_pos hmem]
      exact ih hk
    · rw [if_neg hmem]
      exact ih (d := { seen := h :: d.seen }) (List.mem_cons_of_mem _ hk)

theorem applyOp_mem {canon hash : String → String} {d : Deduplicator}
    {k : String} (op : DedupOp) (hk : k ∈ d.seen) :
    k ∈ (d.applyOp canon hash op).seen := by
  cases op with
  | markSeen u => exact markSeen_mem u hk
  | importHashes hs => exact importHashes_mem hs hk
  | isSeen _ => exact hk
  | count => exact hk
  | exportHashes => exact hk

theorem applyOps_mem {canon hash : String → String} {k : String} :
    ∀ (ops : List DedupOp) (d : Deduplicator), k ∈ d.seen →
      k ∈ (d.applyOps canon hash ops).seen := by
  intro ops
  induction ops with
  | nil =>
    intro d hk
    exact hk
  | cons op ops ih =>
    intro d hk
    simpa [Deduplicator.applyOps, List.foldl_cons] using
      ih (d.applyOp canon hash op) (applyOp_mem op hk)

/-- C9 (counterexample): `Deduplicator.Reset` is an operation of the
deduplicator and it removes membership: after `MarkSeen(u)`, `IsSeen(u)`
holds, but after a `Reset` it no longer does, refuting "no operation of the
deduplicator ever removes membership". -/
theorem dedup_reset_counterexample :
    cexDedup.isSeen idKey idKey "http://h/a" = true ∧
    cexDedup.reset.isSeen idKey idKey "http://h/a" = false ∧
    cexDedup.reset.seen = [] := by
  refine ⟨?_, rfl, rfl⟩
  rfl

/-- C9 (amended): once `MarkSeen(u)` returns, every subsequent `IsSeen(v)`
with `canonical(v) = canonical(u)` returns true across any sequence of
`MarkSeen`/`Import`/`IsSeen`/`Count`/`Export` operations — no operation
other than `Reset` ever removes membership (and the engine never calls
`Reset` during a crawl).  Holds for arbitrary canonicalization and hash
functions, hence for `CanonicalizeURL`/`hashURL`. -/
theorem dedup_monotonic (canon hash : String → String) (d : Deduplicator)
    (u v : String) (hcanon : canon v = canon u) (ops : List DedupOp) :
    ((d.markSeen canon hash u).applyOps canon hash ops).isSeen canon hash v
      = true := by
  rw [Deduplicator.isSeen, hcanon]
  exact List.elem_iff.mpr
    (applyOps_mem ops (d.markSeen canon hash u) (markSeen_self canon hash d u))

/-- C9 witness: a concrete monotonicity run. -/
theorem dedup_monotonic_witness :
    ((Deduplicator.new.markSeen idKey idKey "http://h/a").applyOps idKey idKey
        [DedupOp.isSeen "http://h/a", DedupOp.markSeen "http://h/b",
         DedupOp.count, DedupOp.importHashes ["x"], DedupOp.exportHashes]
      ).isSeen idKey idKey "http://h/a" = true :=
  dedup_monotonic idKey idKey Deduplicator.new "http://h/a" "http://h/a" rfl _

/-! ### C3: context cancellation -/

/-- C3 (counterexample): a context-cancelled fetch IS counted as a failure:
`handleFetchError` increments `RequestsFailed` unconditionally (and
`ResponsesError` for terminal errors), refuting "the requests_failed counter
is unchanged by that outcome". -/
theorem cancellation_counted_counterexample :
    (handleFetchError engineSt0 cexReqA
        (fetchDoError cexReqA cancelErr)).stats.requestsFailed = 1 ∧
    (handleFetchError engineSt0 cexReqA
        (fetchDoError cexReqA cancelErr)).stats.requestsFailed
      ≠ engineSt0.stats.requestsFailed := by
  refine ⟨rfl, ?_⟩
  intro h
  simp [handleFetchError, engineSt0, stats0, fetchDoError, cancelErr,
    isRetryableError, FetchError.IsRetryable, cexReqA] at h

/-- C3 (amended): a fetch aborted by context cancellation is classified
terminal (`Retryable = false`) and is never retried — the frontier is
untouched — but it IS counted: both `requests_failed` and `responses_error`
are incremented. -/
theorem cancelled_fetch_terminal_but_counted (st : EngineSt) (req : Request)
    (err : GoError) (hc : err.isCanceled = true) :
    (fetchDoError req err).IsRetryable = false ∧
    handleFetchError st req (fetchDoError req err) =
      { st with stats := { st.stats with
          requestsFailed := st.stats.requestsFailed + 1,
          responsesError := st.stats.responsesError + 1 } } := by
  have hret : (fetchDoError req err).IsRetryable = false := by
    simp [fetchDoError, FetchError.IsRetryable, isRetryableError, hc]
  refine ⟨hret, ?_⟩
  rw [handleFetchError]
  rw [if_neg]
  intro hcontra
  rw [hret] at hcontra
  cases hcontra.1

/-- C3 witness. -/
theorem cancelled_fetch_terminal_but_counted_witness :
    (fetchDoError cexReqA cancelErr).IsRetryable = false ∧
    handleFetchError engineSt0 cexReqA (fetchDoError cexReqA cancelErr) =
      { engineSt0 with stats := { engineSt0.stats with
          requestsFailed := engineSt0.stats.requestsFailed + 1,
          responsesError := engineSt0.stats.responsesError + 1 } } :=
  cancelled_fetch_terminal_but_counted engineSt0 cexReqA cancelErr rfl

/-! ### C4: 4xx other than 429 -/

/-- C4 (counterexample): a 404 response is NOT treated as a failed fetch:
`Fetch` returns it as a success `Response`, so `processRequest` takes the
success path — `responses_ok` increments and `responses_error` stays 0 —
refuting "the error path (responses_error) rather than the success path
(responses_ok) is taken". -/
theorem http404_success_counterexample :
    fetchDispatch noDate 0 cexReqA resp404 = FetchOutcome.ok 10 ∧
    (processFetch engineSt0 cexReqA
        (fetchDispatch noDate 0 cexReqA resp404)).stats.responsesOK = 1 ∧
    (processFetch engineSt0 cexReqA
        (fetchDispatch noDate 0 cexReqA resp404)).stats.responsesError = 0 := by
  refine ⟨?_, ?_, ?_⟩ <;> rfl

/-- C4 (amended): a 4xx status other than 429 is indeed never retried, but
not because it is terminal: `Fetch` falls through the 429 and ≥ 500 branches
and returns a success `Response`, so `responses_ok` (not `responses_error`)
increments, `bytes_downloaded` grows, and the frontier is untouched. -/
theorem http4xx_success_spec (st : EngineSt) (req : Request)
    (oracle : String → Option Int) (now : Int) (resp : HTTPRespModel)
    (h4 : 400 ≤ resp.statusCode) (h5 : resp.statusCode < 500)
    (h429 : resp.statusCode ≠ 429)
    (hdec : resp.decompressOk = true) (hread : resp.readOk = true) :
    fetchDispatch oracle now req resp = .ok resp.bodyLen ∧
    processFetch st req (fetchDispatch oracle now req resp) =
      { st with stats := { st.stats with
          requestsSent := st.stats.requestsSent + 1,
          responsesOK := st.stats.responsesOK + 1,
          bytesDownloaded := st.stats.bytesDownloaded + resp.bodyLen } } := by
  have hdisp : fetchDispatch oracle now req resp = .ok resp.bodyLen := by
    rw [fetchDispatch, if_neg h429, if_neg (by omega),
      if_neg (by rw [hdec]; intro h; cases h), if_neg (by rw [hread]; intro h; cases h)]
  refine ⟨hdisp, ?_⟩
  rw [hdisp, processFetch]

/-- C4 witness: the 404 instance. -/
theorem http4xx_success_spec_witness :
    fetchDispatch noDate 0 cexReqA resp404 = .ok resp404.bodyLen ∧
    processFetch engineSt0 cexReqA (fetchDispatch noDate 0 cexReqA resp404) =
      { engineSt0 with stats := { engineSt0.stats with
          requestsSent := engineSt0.stats.requestsSent + 1,
          responsesOK := engineSt0.stats.responsesOK + 1,
          bytesDownloaded := engineSt0.stats.bytesDownloaded + resp404.bodyLen } } :=
  http4xx_success_spec engineSt0 cexReqA noDate 0 resp404
    (by decide) (by decide) (by decide) rfl rfl

/-! ### C2: retry re-enqueue -/

/-- C2 (counterexample): the retry path demotes the request to
`types.PriorityLow` (3), which is NOT the lowest priority class — the
constants define `PriorityLowest` (4) below it — refuting "priority demoted
to the lowest priority class". -/
theorem retry_priority_counterexample :
    ((handleFetchError engineSt0 cexReqA cexRetryableErr).frontier.pq.map
        (fun it => it.request.priority)) = [PriorityLow] ∧
    PriorityLow ≠ PriorityLowest := by
  constructor
  · simp [handleFetchError, engineSt0, stats0, cexRetryableErr, cexReqA,
      FetchError.IsRetryable, Frontier.push, Frontier.new, heapPush, heapUp,
      Deduplicator.new]
  · decide

/-- C2 (amended): a retryable fetch failure with `retry_count < max_retries`
re-enqueues the request directly into the frontier — no admission: the
dedup set, `urls_filtered` and `urls_enqueued` are unchanged — with
`retry_count` incremented and priority demoted to `PriorityLow` (3), which
is one class above the lowest (`PriorityLowest` = 4). -/
theorem retry_requeue_spec (st : EngineSt) (req : Request) (e : FetchError)
    (hr : e.IsRetryable = true) (hcount : req.retryCount < req.maxRetries) :
    handleFetchError st req e =
      { st with
        stats := { st.stats with requestsFailed := st.stats.requestsFailed + 1 },
        frontier := st.frontier.push
          { req with retryCount := req.retryCount + 1, priority := PriorityLow } } ∧
    PriorityLow = 3 ∧ PriorityLowest = 4 ∧
    (handleFetchError st req e).dedup = st.dedup ∧
    (handleFetchError st req e).stats.urlsFiltered = st.stats.urlsFiltered ∧
    (handleFetchError st req e).stats.urlsEnqueued = st.stats.urlsEnqueued ∧
    (handleFetchError st req e).stats.responsesError = st.stats.responsesError := by
  have heq : handleFetchError st req e =
      { st with
        stats := { st.stats with requestsFailed := st.stats.requestsFailed + 1 },
        frontier := st.frontier.push
          { req with retryCount := req.retryCount + 1, priority := PriorityLow } } := by
    rw [handleFetchError, if_pos ⟨hr, hcount⟩]
  refine ⟨heq, rfl, rfl, ?_, ?_, ?_, ?_⟩ <;> rw [heq]

/-- C2 witness: a concrete 503 retry. -/
theorem retry_requeue_spec_witness :
    handleFetchError engineSt0 cexReqA cexRetryableErr =
      { engineSt0 with
        stats := { engineSt0.stats with
          requestsFailed := engineSt0.stats.requestsFailed + 1 },
        frontier := engineSt0.frontier.push
          { cexReqA with retryCount := cexReqA.retryCount + 1,
                         priority := PriorityLow } } ∧
    PriorityLow = 3 ∧ PriorityLowest = 4 ∧
    (handleFetchError engineSt0 cexReqA cexRetryableErr).dedup = engineSt0.dedup ∧
    (handleFetchError engineSt0 cexReqA cexRetryableErr).stats.urlsFiltered
      = engineSt0.stats.urlsFiltered ∧
    (handleFetchError engineSt0 cexReqA cexRetryableErr).stats.urlsEnqueued
      = engineSt0.stats.urlsEnqueued ∧
    (handleFetchError engineSt0 cexReqA cexRetryableErr).stats.responsesError
      = engineSt0.stats.responsesError :=
  retry_requeue_spec engineSt0 cexReqA cexRetryableErr rfl (by decide)

/-! ### C6: Retry-After parsing -/

/-- C6 (counterexample): the integer-seconds path of `parseRetryAfter` has
no lower clamp: the header value `"0"` parses to the integer 0 and yields a
0 ns back-off, strictly below the claimed 1 s minimum. -/
theorem retry_after_no_lower_clamp_counterexample :
    goAtoi (trimSpace "0") = some 0 ∧
    parseRetryAfter noDate 0 "0" = 0 ∧ (0 : Int) < second := by
  refine ⟨rfl, rfl, by decide⟩

theorem int64Wrap_of_range {x : Int} (h1 : -(2 ^ 63) ≤ x) (h2 : x < 2 ^ 63) :
    int64Wrap x = x := by
  unfold int64Wrap
  omega

/-- C6 (amended): `parseRetryAfter` clamps to at most 120 s on both paths
(assuming no `int64` overflow, i.e. a non-negative seconds integer), and
maps HTTP-dates in the past to 1 s; but there is no general 1 s lower
clamp: integer values below 120 — including 0 — are used as-is, and
HTTP-date durations inside [0, 1 s) pass through unclamped.  Stated for an
arbitrary behaviour `oracle` of `http.ParseTime`. -/
theorem parseRetryAfter_spec (oracle : String → Option Int) (now : Int)
    (header : String) (hh : header ≠ "") :
    (∀ n, goAtoi (trimSpace header) = some n →
      parseRetryAfter oracle now header = int64Wrap ((min n 120) * second) ∧
      (0 ≤ n →
        parseRetryAfter oracle now header = (min n 120) * second ∧
        0 ≤ parseRetryAfter oracle now header ∧
        parseRetryAfter oracle now header ≤ 120 * second)) ∧
    (∀ t, goAtoi (trimSpace header) = none → oracle header = some t →
      parseRetryAfter oracle now header
        = (if t - now < 0 then second else min (t - now) (120 * second)) ∧
      parseRetryAfter oracle now header ≤ 120 * second ∧
      (t - now < 0 → parseRetryAfter oracle now header = second)) := by
  constructor
  · intro n hn
    have hstep : parseRetryAfter oracle now header =
        int64Wrap ((if n > 120 then (120 : Int) else n) * second) := by
      rw [parseRetryAfter, if_neg hh, hn]
    have hmin : (if n > 120 then (120 : Int) else n) = min n 120 := by
      rcases le_or_lt n 120 with h | h
      · rw [if_neg (by omega), min_eq_left h]
      · rw [if_pos h, min_eq_right (by omega)]
    rw [hstep, hmin]
    refine ⟨rfl, ?_⟩
    intro hn0
    have hb1 : 0 ≤ min n 120 := le_min hn0 (by omega)
    have hb2 : min n 120 ≤ 120 := min_le_right _ _
    have hw : int64Wrap ((min n 120) * second) = (min n 120) * second := by
      apply int64Wrap_of_range <;> · unfold second; omega
    rw [hw]
    refine ⟨rfl, ?_, ?_⟩ <;> · unfold second; omega
  · intro t hn ht
    have hstep : parseRetryAfter oracle now header =
        (if t - now < 0 then second
         else if t - now > 120 * second then 120 * second else t - now) := by
      rw [parseRetryAfter, if_neg hh, hn, ht]
    refine ⟨?_, ?_, ?_⟩
    · rw [hstep]
      rcases lt_or_le (t - now) 0 with h | h
      · rw [if_pos h, if_pos h]
      · simp only [if_neg (show ¬(t - now < 0) by omega)]
        rcases le_or_lt (t - now) (120 * second) with h' | h'
        · rw [if_neg (show ¬(t - now > 120 * second) by omega), min_eq_left h']
        · rw [if_pos h', min_eq_right (by omega)]
    · rw [hstep]
      split
      · unfold second
        omega
      · split <;> omega
    · intro hneg
      rw [hstep, if_pos hneg]

/-- C6 witness: an in-range integer header. -/
theorem parseRetryAfter_spec_witness :
    parseRetryAfter noDate 0 "90" = (min 90 120) * second ∧
    0 ≤ parseRetryAfter noDate 0 "90" ∧
    parseRetryAfter noDate 0 "90" ≤ 120 * second :=
  ((parseRetryAfter_spec noDate 0 "90" (by decide)).1 90 rfl).2 (by decide)

/-! ### C7: admission order and effects -/

/-- C7: `AddRequest` checks depth, dedup, robots (when enabled), domain
filter, in that order — an earlier failure wins regardless of later checks.
Every failing check increments `urls_filtered` exactly once and returns its
own error kind, leaving the dedup set, the frontier and `urls_enqueued`
unchanged; on success the canonical URL is marked seen, the request is
pushed to the frontier, and `urls_enqueued` increments while
`urls_filtered` does not.  The five results are pairwise distinct. -/
theorem addRequest_spec (cfg : EngineConfig) (canon hash : String → String)
    (robots : String → Bool) (st : EngineSt) (req : Request) :
    (req.depth > cfg.maxDepth →
      AddRequest cfg canon hash robots st req =
        (.errMaxDepth, { st with stats := { st.stats with
            urlsFiltered := st.stats.urlsFiltered + 1 } })) ∧
    (¬ req.depth > cfg.maxDepth →
      st.dedup.isSeen canon hash req.url = true →
      AddRequest cfg canon hash robots st req =
        (.errDuplicate, { st with stats := { st.stats with
            urlsFiltered := st.stats.urlsFiltered + 1 } })) ∧
    (¬ req.depth > cfg.maxDepth →
      st.dedup.isSeen canon hash req.url = false →
      cfg.respectRobotsTxt = true → robots req.url = false →
      AddRequest cfg canon hash robots st req =
        (.errBlocked, { st with stats := { st.stats with
            urlsFiltered := st.stats.urlsFiltered + 1 } })) ∧
    (¬ req.depth > cfg.maxDepth →
      st.dedup.isSeen canon hash req.url = false →
      (cfg.respectRobotsTxt && !(robots req.url)) = false →
      isDomainAllowed cfg req.domain = false →
      AddRequest cfg canon hash robots st req =
        (.errDomainNotAllowed, { st with stats := { st.stats with
            urlsFiltered := st.stats.urlsFiltered + 1 } })) ∧
    (¬ req.depth > cfg.maxDepth →
      st.dedup.isSeen canon hash req.url = false →
      (cfg.respectRobotsTxt && !(robots req.url)) = false →
      isDomainAllowed cfg req.domain = true →
      AddRequest cfg canon hash robots st req =
        (.ok, { st with
          dedup := st.dedup.markSeen canon hash req.url,
          frontier := st.frontier.push req,
          stats := { st.stats with
            urlsEnqueued := st.stats.urlsEnqueued + 1 } })) ∧
    [AdmissionResult.ok, .errMaxDepth, .errDuplicate, .errBlocked,
      .errDomainNotAllowed].Nodup := by
  refine ⟨?_, ?_, ?_, ?_, ?_, by decide⟩
  · intro hd
    rw [AddRequest, if_pos hd]
  · intro hd hseen
    rw [AddRequest, if_neg hd, if_pos hseen]
  · intro hd hseen hrob hallow
    rw [AddRequest, if_neg hd, if_neg (by rw [hseen]; intro h; cases h),
      if_pos (by rw [hrob, hallow]; rfl)]
  · intro hd hseen hrob hdom
    rw [AddRequest, if_neg hd, if_neg (by rw [hseen]; intro h; cases h),
      if_neg (by rw [hrob]; intro h; cases h),
      if_pos (by rw [hdom]; rfl)]
  · intro hd hseen hrob hdom
    rw [AddRequest, if_neg hd, if_neg (by rw [hseen]; intro h; cases h),
      if_neg (by rw [hrob]; intro h; cases h),
      if_neg (by rw [hdom]; intro h; cases h)]

/-- C7 witness: a successful admission through all four checks. -/
theorem addRequest_spec_witness :
    AddRequest cfg0 idKey idKey (fun _ => true) engineSt0 cexReqA =
      (.ok, { engineSt0 with
        dedup := engineSt0.dedup.markSeen idKey idKey cexReqA.url,
        frontier := engineSt0.frontier.push cexReqA,
        stats := { engineSt0.stats with
          urlsEnqueued := engineSt0.stats.urlsEnqueued + 1 } }) := by
  have h := addRequest_spec cfg0 idKey idKey (fun _ => true) engineSt0 cexReqA
  exact h.2.2.2.2.1 (by decide) rfl rfl rfl

end Crawl
